import Mathlib

/-!
mackerel-plugin-nginx-cache: the rate-limited disk-usage walk.

A shallow embedding of `main.go`:

* `diskUsage` / `walkFiles` : the recursive walk and its `for ... range files` loop,
* `FetchMetrics`            : the walk followed by the conversion to megabytes,
* `buildTempfilePath`, `mainTempfile` : the scratch-file path,
* `mainProxyCacheSize`      : the capacity parsing done in `main`.

Go strings are byte sequences; a byte is a natural number.  Signed 64-bit
arithmetic is integer arithmetic followed by `wrap64`.  The filesystem seen by one
scan is a finite tree (`FsEntry`); the limiter is an oracle `wait : Nat → Option GoError`
giving the outcome of the k-th call of `limiter.Wait(ctx)`.
-/

namespace NginxCache

/-! ## Definitions -/

/-- Go `error` values that the walk can meet. `canceled` is `context.Canceled`,
`notDir` is the failure of `ioutil.ReadDir` on a path that is not a directory,
`other` stands for any other error value (permission denied, path removed, a
limiter failure other than cancellation, ...). -/
inductive GoError
  | canceled
  | notDir
  | other (code : Nat)
  deriving DecidableEq, Repr

/-- What a path denotes during one scan.
`file blksize` : a non-directory entry (`file.IsDir()` is false); `blksize` is
`some (int64(statt.Blksize))` when `file.Sys()` is a `*syscall.Stat_t`, else `none`.
`dir readErr files` : a directory; `ioutil.ReadDir` on it returns `(nil, e)` when
`readErr = some e`, and `(files, nil)` when `readErr = none`. -/
inductive FsEntry
  | file (blksize : Option Int)
  | dir (readErr : Option GoError) (files : List FsEntry)

/-- Two's-complement reduction of an integer to the `int64` range. -/
def wrap64 (x : Int) : Int := (x + 2 ^ 63) % 2 ^ 64 - 2 ^ 63

/-- Result of a walk: the two Go return values `(usage, err)` and `waits`, the
number of calls of `limiter.Wait` made so far (the state of the limiter oracle). -/
structure WalkResult where
  usage : Int
  err : Option GoError
  waits : Nat
  deriving DecidableEq, Repr

mutual
/-- The function `diskUsage(ctx, limiter, dir, maxDepth, depth)`, where the path `dir`
denotes the entry given and `t` calls of `limiter.Wait` were made before.  `ReadDir`
fails on a non-directory and on a directory with `readErr = some e`.  `maxDepth` and
`depth` are Go `int`s; `depth + 1` is passed down and never read, so its overflow is not
modelled. -/
def diskUsage (wait : Nat → Option GoError) (maxDepth depth : Int) (t : Nat) :
    FsEntry → WalkResult
  | .file _ => ⟨0, some .notDir, t⟩
  | .dir (some e) _ => ⟨0, some e, t⟩
  | .dir none files => walkFiles wait maxDepth depth 0 t files
/-- The loop `for _, file := range files` of `diskUsage`, entered with running total
`usage` after `t` calls of `limiter.Wait`. -/
def walkFiles (wait : Nat → Option GoError) (maxDepth depth : Int) (usage : Int) (t : Nat) :
    List FsEntry → WalkResult
  | [] => ⟨usage, none, t⟩
  | .file blk :: rest =>
    match wait t with
    | some e => ⟨usage, some e, t + 1⟩
    | none =>
      match blk with
      | some b => walkFiles wait maxDepth depth (wrap64 (usage + b)) (t + 1) rest
      | none => walkFiles wait maxDepth depth usage (t + 1) rest
  | .dir re fs :: rest =>
    match wait t with
    | some e => ⟨usage, some e, t + 1⟩
    | none =>
      let r := diskUsage wait maxDepth (depth + 1) (t + 1) (.dir re fs)
      match r.err with
      | some e => ⟨usage, some e, r.waits⟩
      | none => walkFiles wait maxDepth depth (wrap64 (usage + r.usage)) r.waits rest
end

/-- Number of low bits that do not fit a 53-bit significand (`fuel` bounds the search). -/
def excessBits : Nat → Nat → Nat
  | 0, _ => 0
  | fuel + 1, m => if m < 2 ^ 53 then 0 else excessBits fuel (m / 2) + 1

/-- Rounding of a natural number to 53 significant bits, ties to even: the value of
`float64(m)` for `m ≤ 2^64`. -/
def roundFloat53 (m : Nat) : Nat :=
  let e := excessBits 64 m
  let q := m / 2 ^ e
  let r := m % 2 ^ e
  if 2 * r < 2 ^ e then q * 2 ^ e
  else if 2 ^ e < 2 * r then (q + 1) * 2 ^ e
  else if q % 2 = 0 then q * 2 ^ e
  else (q + 1) * 2 ^ e

/-- The conversion `float64(x)` of an `int64`; the result is always an integer. -/
def float64OfInt64 (x : Int) : Int :=
  if 0 ≤ x then (roundFloat53 x.toNat : Int) else -(roundFloat53 (-x).toNat : Int)

/-- The expression `uint64(float64(usageByte) / (1024 * 1024))`, with `f` the value of
`float64(usageByte)`.  The division by a power of two is exact and the conversion to
`uint64` discards the fraction, so a quotient above `-1` gives the floor of the
non-negative part.  For a quotient of `-1` or less the Go result is
implementation-dependent; it is given by `conv`. -/
def usageMegabytes (conv : Int → Nat) (usageByte : Int) : Nat :=
  let f := float64OfInt64 usageByte
  if -1048576 < f then f.toNat / 1048576 else conv f

/-- The plugin value; `ProxyCacheSize` is a `uint64`. -/
structure NginxCachePlugin where
  ProxyCachePath : List Nat
  ProxyCacheSize : Nat
  ProxyCacheKeysZoneName : List Nat
  Tempfile : List Nat

/-- The method `FetchMetrics`: `root` is what `n.ProxyCachePath` denotes and `wait` the
behaviour of the limiter created for this scan, which has made no call yet.  The result
is the Go pair `(map, err)`, the map given by its key-value pairs and `nil` by `none`. -/
def FetchMetrics (conv : Int → Nat) (wait : Nat → Option GoError) (n : NginxCachePlugin)
    (root : FsEntry) : Option (List (String × Nat)) × Option GoError :=
  let r := diskUsage wait 10 0 0 root
  match r.err with
  | some e => (none, some e)
  | none => (some [("size", n.ProxyCacheSize), ("usage", usageMegabytes conv r.usage)], none)

/-- Bytes of an ASCII literal. -/
def ascii (s : String) : List Nat := s.data.map Char.toNat

/-- The scan of `strings.Replace(s, old, new, n)` for a non-empty `old`: scanning from the left, the
first `n` non-overlapping occurrences of `old` are replaced (all of them when `n < 0`).
`fuel` bounds the scan. -/
def stringsReplaceAux (old new : List Nat) : Nat → Int → List Nat → List Nat
  | 0, _, s => s
  | fuel + 1, n, s =>
    if n = 0 then s
    else
      match s with
      | [] => []
      | c :: rest =>
        if old.isPrefixOf (c :: rest) then
          new ++ stringsReplaceAux old new fuel (n - 1) ((c :: rest).drop old.length)
        else c :: stringsReplaceAux old new fuel n rest

/-- The library function `strings.Replace`.  The empty pattern, which Go matches between UTF-8 sequences, is
never passed by this program and is left unreplaced here. -/
def stringsReplace (s old new : List Nat) (n : Int) : List Nat :=
  if old = [] then s else stringsReplaceAux old new s.length n s

/-- The function `buildTempfilePath`: `fmt.Sprintf` with a single `%s` appends the argument. -/
def buildTempfilePath (path : List Nat) : List Nat :=
  ascii "/tmp/mackerel-plugin-nginx-cache-" ++ stringsReplace path (ascii "/") (ascii "-") (-1)

/-- The value `main` stores in `helper.Tempfile`. -/
def mainTempfile (tempfile proxyCachePath : List Nat) : List Nat :=
  if tempfile ≠ [] then tempfile else buildTempfilePath proxyCachePath

/-- Errors of `strconv.ParseUint`: `malformed` is `ErrSyntax`, `outOfRange` is `ErrRange`,
`badBase` and `badBitSize` are the invalid-argument errors. -/
inductive NumError
  | malformed
  | outOfRange
  | badBase
  | badBitSize
  deriving DecidableEq, Repr

/-- The helper `lower(c)` of `strconv`: `c | ('x' - 'X')`. -/
def lower (c : Nat) : Nat := c ||| 32

/-- The scan of `underscoreOK` over the number proper; `i` is the class of the last
byte seen: 94 for the start, 48 for a digit or base marker, 95 for an underscore, 33 for
anything else. -/
def underscoreScan (hex : Bool) : Nat → List Nat → Bool
  | i, [] => i != 95
  | i, c :: cs =>
    if (48 ≤ c ∧ c ≤ 57) ∨ (hex = true ∧ 97 ≤ lower c ∧ lower c ≤ 102) then
      underscoreScan hex 48 cs
    else if c = 95 then
      if i ≠ 48 then false else underscoreScan hex 95 cs
    else if i = 95 then false
    else underscoreScan hex 33 cs

/-- The helper `underscoreOK(s)` of `strconv`: underscores only separate digits. -/
def underscoreOK (s : List Nat) : Bool :=
  let s1 := match s with
    | c :: cs => if c = 45 ∨ c = 43 then cs else s
    | [] => s
  match s1 with
  | c0 :: c1 :: cs =>
    if c0 = 48 ∧ (lower c1 = 98 ∨ lower c1 = 111 ∨ lower c1 = 120) then
      underscoreScan (lower c1 = 120) 48 cs
    else underscoreScan false 94 s1
  | _ => underscoreScan false 94 s1

/-- The digit loop of `strconv.ParseUint`: `n` is the `uint64` accumulator and `us` the
flag `underscores`.  The result is `(value, err, underscores)`. -/
def parseUintLoop (base : Nat) (base0 : Bool) (cutoff maxVal : Nat) :
    Nat → Bool → List Nat → Nat × Option NumError × Bool
  | n, us, [] => (n, none, us)
  | n, us, c :: cs =>
    if c = 95 ∧ base0 = true then parseUintLoop base base0 cutoff maxVal n true cs
    else
      let d : Option Nat :=
        if 48 ≤ c ∧ c ≤ 57 then some (c - 48)
        else if 97 ≤ lower c ∧ lower c ≤ 122 then some (lower c - 97 + 10)
        else none
      match d with
      | none => (0, some .malformed, us)
      | some d =>
        if base ≤ d then (0, some .malformed, us)
        else if cutoff ≤ n then (maxVal, some .outOfRange, us)
        else
          let n0 := n * base % 2 ^ 64
          let n1 := (n0 + d) % 2 ^ 64
          if n1 < n0 ∨ maxVal < n1 then (maxVal, some .outOfRange, us)
          else parseUintLoop base base0 cutoff maxVal n1 us cs

/-- Base selection of `strconv.ParseUint` for `base == 0` on a non-empty string: the
base and the digits that remain after the base marker. -/
def detectBase : List Nat → Nat × List Nat
  | 48 :: c1 :: c2 :: cs =>
    if lower c1 = 98 then (2, c2 :: cs)
    else if lower c1 = 111 then (8, c2 :: cs)
    else if lower c1 = 120 then (16, c2 :: cs)
    else (8, c1 :: c2 :: cs)
  | 48 :: cs => (8, cs)
  | s => (10, s)

/-- The library function `strconv.ParseUint(s, base, bitSize)` (Go 1.13 and later), returning the Go pair
`(value, err)`.  `IntSize` is taken as 64. -/
def parseUint (s : List Nat) (base : Nat) (bitSize : Int) : Nat × Option NumError :=
  if s = [] then (0, some .malformed)
  else
    let base0 : Bool := base = 0
    if ¬ (base = 0 ∨ (2 ≤ base ∧ base ≤ 36)) then (0, some .badBase)
    else
      let bd : Nat × List Nat := if base = 0 then detectBase s else (base, s)
      let bits : Int := if bitSize = 0 then 64 else bitSize
      if bits < 0 ∨ 64 < bits then (0, some .badBitSize)
      else
        let cutoff := (2 ^ 64 - 1) / bd.1 + 1
        let maxVal := 2 ^ bits.toNat - 1
        match parseUintLoop bd.1 base0 cutoff maxVal 0 false bd.2 with
        | (v, some e, _) => (v, some e)
        | (v, none, us) =>
          if us = true ∧ underscoreOK s = false then (0, some .malformed) else (v, none)

/-- The test `usageUnitPat.MatchString(s)` for the pattern `m$` (no multi-line flag, so
`$` is the end of the text): the text ends with the byte `m`. -/
def usageUnitPatMatch (s : List Nat) : Bool := s.getLast? == some 109

/-- The capacity parsing of `main`: `some v` is the value stored in
`nginx.ProxyCacheSize`, `none` is `os.Exit(1)`. -/
def mainProxyCacheSize (proxyCacheSize : List Nat) : Option Nat :=
  let s := if usageUnitPatMatch proxyCacheSize then
      proxyCacheSize.take (proxyCacheSize.length - 1)
    else proxyCacheSize
  match parseUint s 0 64 with
  | (v, none) => some v
  | (_, some _) => none

/-- The decimal representation of a natural number, as bytes. -/
def decimal (n : Nat) : List Nat := (Nat.toDigits 10 n).map Char.toNat

/-! ### Quantities the specification speaks of -/

mutual
/-- Sum of the block sizes of all non-directory entries below an entry, an entry
without block-size metadata contributing 0. -/
def totalBlocks : FsEntry → Int
  | .file blk => blk.getD 0
  | .dir _ fs => totalBlocksList fs
/-- Sum of `totalBlocks` over a listing. -/
def totalBlocksList : List FsEntry → Int
  | [] => 0
  | e :: rest => totalBlocks e + totalBlocksList rest
end

mutual
/-- Number of filesystem entries (files and directories) strictly below an entry. -/
def entryCount : FsEntry → Nat
  | .file _ => 0
  | .dir _ fs => entryCountList fs
/-- Number of entries of a listing together with everything below them. -/
def entryCountList : List FsEntry → Nat
  | [] => 0
  | e :: rest => 1 + entryCount e + entryCountList rest
end

mutual
/-- Every directory of the tree, the root included, can be listed. -/
def allReadable : FsEntry → Bool
  | .file _ => true
  | .dir (some _) _ => false
  | .dir none fs => allReadableList fs
/-- Every directory in and below a listing can be listed. -/
def allReadableList : List FsEntry → Bool
  | [] => true
  | e :: rest => allReadable e && allReadableList rest
end

mutual
/-- The tree holds a directory whose listing fails. -/
def hasUnreadable : FsEntry → Bool
  | .file _ => false
  | .dir (some _) _ => true
  | .dir none fs => hasUnreadableList fs
/-- Some entry of the listing holds a directory whose listing fails. -/
def hasUnreadableList : List FsEntry → Bool
  | [] => false
  | e :: rest => hasUnreadable e || hasUnreadableList rest
end

mutual
/-- Every block size reported in the tree is non-negative. -/
def nonnegBlocks : FsEntry → Bool
  | .file blk => decide (0 ≤ blk.getD 0)
  | .dir _ fs => nonnegBlocksList fs
/-- Every block size reported in or below the listing is non-negative. -/
def nonnegBlocksList : List FsEntry → Bool
  | [] => true
  | e :: rest => nonnegBlocks e && nonnegBlocksList rest
end

/-- A chain of `k` nested directories with `e` at the bottom. -/
def nest : Nat → FsEntry → FsEntry
  | 0, e => e
  | k + 1, e => .dir none [nest k e]

/-- The tree of the specification's example: a root holding one file of block size 4096
and one subdirectory holding files of block sizes 4096 and 8192. -/
def exampleTree : FsEntry :=
  .dir none [.file (some 4096), .dir none [.file (some 4096), .file (some 8192)]]

/-- A limiter whose every acquisition succeeds. -/
def alwaysGrant : Nat → Option GoError := fun _ => none

/-- A limiter whose every acquisition fails because the context is cancelled. -/
def alwaysCancelled : Nat → Option GoError := fun _ => some .canceled

/-- Value of a string of decimal digits read from the left, starting from `a`. -/
def digitsValue (a : Nat) (l : List Nat) : Nat := l.foldl (fun x c => x * 10 + (c - 48)) a

/-! ## Theorems -/

/-! ### 64-bit wrap-around -/

theorem wrap64_of_range (x : Int) (h1 : -2 ^ 63 ≤ x) (h2 : x < 2 ^ 63) : wrap64 x = x := by
  unfold wrap64
  omega

theorem wrap64_range (x : Int) : -2 ^ 63 ≤ wrap64 x ∧ wrap64 x < 2 ^ 63 := by
  unfold wrap64
  omega

theorem wrap64_idem (x : Int) : wrap64 (wrap64 x) = wrap64 x := by
  unfold wrap64
  omega

theorem wrap64_add_left (a b : Int) : wrap64 (wrap64 a + b) = wrap64 (a + b) := by
  unfold wrap64
  omega

theorem wrap64_add_right (a b : Int) : wrap64 (a + wrap64 b) = wrap64 (a + b) := by
  unfold wrap64
  omega

/-! ### The walk: unfolding and splitting of the loop -/

theorem walkFiles_wait_fail (wait : Nat → Option GoError) (md d u : Int) (t : Nat)
    (x : FsEntry) (rest : List FsEntry) (e : GoError) (hw : wait t = some e) :
    walkFiles wait md d u t (x :: rest) = ⟨u, some e, t + 1⟩ := by
  cases x <;> simp [walkFiles, hw]

theorem walkFiles_append (wait : Nat → Option GoError) (md d : Int) :
    ∀ (a b : List FsEntry) (u : Int) (t : Nat),
      walkFiles wait md d u t (a ++ b) =
        match (walkFiles wait md d u t a).err with
        | some _ => walkFiles wait md d u t a
        | none => walkFiles wait md d (walkFiles wait md d u t a).usage
            (walkFiles wait md d u t a).waits b
  | [], b, u, t => by simp [walkFiles]
  | .file blk :: rest, b, u, t => by
    simp only [List.cons_append, walkFiles]
    cases hw : wait t with
    | some e => simp
    | none =>
      cases blk with
      | none => simpa using walkFiles_append wait md d rest b u (t + 1)
      | some v => simpa using walkFiles_append wait md d rest b (wrap64 (u + v)) (t + 1)
  | .dir re fs :: rest, b, u, t => by
    simp only [List.cons_append, walkFiles]
    cases hw : wait t with
    | some e => simp
    | none =>
      cases hr : (diskUsage wait md (d + 1) (t + 1) (.dir re fs)).err with
      | some e => simp
      | none => simpa using walkFiles_append wait md d rest b _ _
/-! ### A walk that returns no error -/

mutual
theorem diskUsage_ok_usage (wait : Nat → Option GoError) (md d : Int) (t : Nat) :
    ∀ e : FsEntry, (diskUsage wait md d t e).err = none →
      (diskUsage wait md d t e).usage = wrap64 (totalBlocks e)
  | .file _ => by simp [diskUsage]
  | .dir (some e) _ => by simp [diskUsage]
  | .dir none fs => by
    intro h
    simp only [diskUsage, totalBlocks] at h ⊢
    have := walkFiles_ok_usage wait md d 0 t fs (by decide) h
    simpa using this
theorem walkFiles_ok_usage (wait : Nat → Option GoError) (md d : Int) (u : Int) (t : Nat) :
    ∀ fs : List FsEntry, wrap64 u = u → (walkFiles wait md d u t fs).err = none →
      (walkFiles wait md d u t fs).usage = wrap64 (u + totalBlocksList fs)
  | [] => by
    intro hu _
    simp [walkFiles, totalBlocksList, hu]
  | .file blk :: rest => by
    intro hu h
    simp only [walkFiles, totalBlocksList, totalBlocks] at h ⊢
    cases hw : wait t with
    | some e => simp [hw] at h
    | none =>
      simp only [hw] at h ⊢
      cases blk with
      | none =>
        simp only at h ⊢
        rw [walkFiles_ok_usage wait md d _ _ rest hu h]
        simp
      | some b =>
        simp only at h ⊢
        rw [walkFiles_ok_usage wait md d _ _ rest (wrap64_idem _) h, wrap64_add_left]
        simp [add_assoc]
  | .dir re fs :: rest => by
    intro hu h
    simp only [walkFiles, totalBlocksList] at h ⊢
    cases hw : wait t with
    | some e => simp [hw] at h
    | none =>
      simp only [hw] at h ⊢
      cases hr : (diskUsage wait md (d + 1) (t + 1) (.dir re fs)).err with
      | some e => simp [hr] at h
      | none =>
        simp only [hr] at h ⊢
        rw [walkFiles_ok_usage wait md d _ _ rest (wrap64_idem _) h,
          diskUsage_ok_usage wait md (d + 1) (t + 1) (.dir re fs) hr]
        simp only [wrap64]
        omega
end

mutual
theorem diskUsage_ok_waits (wait : Nat → Option GoError) (md d : Int) (t : Nat) :
    ∀ e : FsEntry, (diskUsage wait md d t e).err = none →
      (diskUsage wait md d t e).waits = t + entryCount e
  | .file _ => by simp [diskUsage]
  | .dir (some e) _ => by simp [diskUsage]
  | .dir none fs => by
    intro h
    simp only [diskUsage, entryCount] at h ⊢
    exact walkFiles_ok_waits wait md d 0 t fs h
theorem walkFiles_ok_waits (wait : Nat → Option GoError) (md d : Int) (u : Int) (t : Nat) :
    ∀ fs : List FsEntry, (walkFiles wait md d u t fs).err = none →
      (walkFiles wait md d u t fs).waits = t + entryCountList fs
  | [] => by simp [walkFiles, entryCountList]
  | .file blk :: rest => by
    intro h
    simp only [walkFiles, entryCountList, entryCount] at h ⊢
    cases hw : wait t with
    | some e => simp [hw] at h
    | none =>
      simp only [hw] at h ⊢
      cases blk with
      | none =>
        simp only at h ⊢
        rw [walkFiles_ok_waits wait md d _ _ rest h]; omega
      | some b =>
        simp only at h ⊢
        rw [walkFiles_ok_waits wait md d _ _ rest h]; omega
  | .dir re fs :: rest => by
    intro h
    simp only [walkFiles, entryCountList] at h ⊢
    cases hw : wait t with
    | some e => simp [hw] at h
    | none =>
      simp only [hw] at h ⊢
      cases hr : (diskUsage wait md (d + 1) (t + 1) (.dir re fs)).err with
      | some e => simp [hr] at h
      | none =>
        simp only [hr] at h ⊢
        rw [walkFiles_ok_waits wait md d _ _ rest h,
          diskUsage_ok_waits wait md (d + 1) (t + 1) (.dir re fs) hr]
        omega
end

theorem walkFiles_no_error (wait : Nat → Option GoError) (hw : ∀ k, wait k = none)
    (md : Int) :
    ∀ (fs : List FsEntry) (d u : Int) (t : Nat), allReadableList fs = true →
      (walkFiles wait md d u t fs).err = none
  | [], d, u, t => by simp [walkFiles]
  | .file blk :: rest, d, u, t => by
    intro h
    simp only [allReadableList, allReadable, Bool.true_and] at h
    simp only [walkFiles, hw]
    cases blk with
    | none => exact walkFiles_no_error wait hw md rest d _ _ h
    | some b => exact walkFiles_no_error wait hw md rest d _ _ h
  | .dir (some e) fs :: rest, d, u, t => by simp [allReadableList, allReadable]
  | .dir none fs :: rest, d, u, t => by
    intro h
    simp only [allReadableList, allReadable, Bool.and_eq_true] at h
    have hr : (diskUsage wait md (d + 1) (t + 1) (.dir none fs)).err = none := by
      simp only [diskUsage]
      exact walkFiles_no_error wait hw md fs (d + 1) 0 (t + 1) h.1
    simp only [walkFiles, hw, hr]
    exact walkFiles_no_error wait hw md rest d _ _ h.2

/-! ### The depth arguments are not read -/

theorem walkFiles_depth_irrelevant (wait : Nat → Option GoError) (md md' : Int) :
    ∀ (fs : List FsEntry) (d d' u : Int) (t : Nat),
      walkFiles wait md d u t fs = walkFiles wait md' d' u t fs
  | [], d, d', u, t => by simp [walkFiles]
  | .file blk :: rest, d, d', u, t => by
    simp only [walkFiles]
    cases wait t with
    | some e => rfl
    | none =>
      cases blk with
      | none => exact walkFiles_depth_irrelevant wait md md' rest d d' _ _
      | some b => exact walkFiles_depth_irrelevant wait md md' rest d d' _ _
  | .dir (some e) fs :: rest, d, d', u, t => by
    simp only [walkFiles, diskUsage]
  | .dir none fs :: rest, d, d', u, t => by
    simp only [walkFiles, diskUsage]
    rw [walkFiles_depth_irrelevant wait md md' fs (d + 1) (d' + 1) 0 (t + 1)]
    cases wait t with
    | some e => rfl
    | none =>
      cases (walkFiles wait md' (d' + 1) 0 (t + 1) fs).err with
      | some e => rfl
      | none => exact walkFiles_depth_irrelevant wait md md' rest d d' _ _

theorem diskUsage_depth_irrelevant (wait : Nat → Option GoError) (md md' d d' : Int) (t : Nat)
    (e : FsEntry) : diskUsage wait md d t e = diskUsage wait md' d' t e := by
  cases e with
  | file blk => simp [diskUsage]
  | dir re fs =>
    cases re with
    | some e => simp [diskUsage]
    | none =>
      simp only [diskUsage]
      exact walkFiles_depth_irrelevant wait md md' fs d d' 0 t

/-! ### A listing failure anywhere in the tree -/

theorem walkFiles_unreadable (wait : Nat → Option GoError) (md : Int) :
    ∀ (fs : List FsEntry) (d u : Int) (t : Nat), hasUnreadableList fs = true →
      (walkFiles wait md d u t fs).err ≠ none
  | [], d, u, t => by simp [hasUnreadableList]
  | .file blk :: rest, d, u, t => by
    intro h
    simp only [hasUnreadableList, hasUnreadable, Bool.false_or] at h
    simp only [walkFiles]
    cases wait t with
    | some e => simp
    | none =>
      cases blk with
      | none => exact walkFiles_unreadable wait md rest d _ _ h
      | some b => exact walkFiles_unreadable wait md rest d _ _ h
  | .dir (some e) fs :: rest, d, u, t => by
    intro _
    simp only [walkFiles, diskUsage]
    cases wait t with
    | some e => simp
    | none => simp
  | .dir none fs :: rest, d, u, t => by
    intro h
    simp only [hasUnreadableList, hasUnreadable, Bool.or_eq_true] at h
    simp only [walkFiles, diskUsage]
    cases wait t with
    | some e => simp
    | none =>
      cases hr : (walkFiles wait md (d + 1) 0 (t + 1) fs).err with
      | some e => simp
      | none =>
        rcases h with h | h
        · exact absurd hr (walkFiles_unreadable wait md fs (d + 1) 0 (t + 1) h)
        · exact walkFiles_unreadable wait md rest d _ _ h

theorem diskUsage_unreadable (wait : Nat → Option GoError) (md d : Int) (t : Nat)
    (e : FsEntry) (h : hasUnreadable e = true) : (diskUsage wait md d t e).err ≠ none := by
  cases e with
  | file blk => simp [diskUsage]
  | dir re fs =>
    cases re with
    | some e => simp [diskUsage]
    | none =>
      simp only [diskUsage]
      exact walkFiles_unreadable wait md fs d 0 t (by simpa [hasUnreadable] using h)

/-! ### Non-negative block sizes without overflow -/

theorem totalBlocksList_nonneg :
    ∀ fs : List FsEntry, nonnegBlocksList fs = true → 0 ≤ totalBlocksList fs
  | [] => by simp [totalBlocksList]
  | .file blk :: rest => by
    intro h
    simp only [nonnegBlocksList, nonnegBlocks, Bool.and_eq_true, decide_eq_true_eq] at h
    have := totalBlocksList_nonneg rest h.2
    simp only [totalBlocksList, totalBlocks]
    omega
  | .dir re fs :: rest => by
    intro h
    simp only [nonnegBlocksList, nonnegBlocks, Bool.and_eq_true] at h
    have h1 := totalBlocksList_nonneg fs h.1
    have h2 := totalBlocksList_nonneg rest h.2
    simp only [totalBlocksList, totalBlocks]
    omega

theorem walkFiles_usage_bounds (wait : Nat → Option GoError) (md : Int) :
    ∀ (fs : List FsEntry) (d u : Int) (t : Nat), nonnegBlocksList fs = true → 0 ≤ u →
      u + totalBlocksList fs < 2 ^ 63 →
      u ≤ (walkFiles wait md d u t fs).usage ∧
        (walkFiles wait md d u t fs).usage ≤ u + totalBlocksList fs
  | [], d, u, t => by simp [walkFiles, totalBlocksList]
  | .file blk :: rest, d, u, t => by
    intro h hu hs
    simp only [nonnegBlocksList, nonnegBlocks, Bool.and_eq_true, decide_eq_true_eq] at h
    have hrest := totalBlocksList_nonneg rest h.2
    simp only [totalBlocksList, totalBlocks] at hs ⊢
    simp only [walkFiles]
    cases wait t with
    | some e => simp only; omega
    | none =>
      cases blk with
      | none =>
        simp only [Option.getD_none] at hs h ⊢
        have := walkFiles_usage_bounds wait md rest d u (t + 1) h.2 hu (by omega)
        omega
      | some b =>
        simp only [Option.getD_some] at hs h ⊢
        have hb := h.1
        rw [wrap64_of_range (u + b) (by omega) (by omega)]
        have := walkFiles_usage_bounds wait md rest d (u + b) (t + 1) h.2 (by omega) (by omega)
        omega
  | .dir (some e) fs :: rest, d, u, t => by
    intro h hu hs
    simp only [nonnegBlocksList, nonnegBlocks, Bool.and_eq_true] at h
    have h1 := totalBlocksList_nonneg fs h.1
    have h2 := totalBlocksList_nonneg rest h.2
    simp only [totalBlocksList, totalBlocks] at hs ⊢
    simp only [walkFiles, diskUsage]
    cases wait t with
    | some e => simp only; omega
    | none => simp only; omega
  | .dir none fs :: rest, d, u, t => by
    intro h hu hs
    simp only [nonnegBlocksList, nonnegBlocks, Bool.and_eq_true] at h
    have h1 := totalBlocksList_nonneg fs h.1
    have h2 := totalBlocksList_nonneg rest h.2
    simp only [totalBlocksList, totalBlocks] at hs ⊢
    simp only [walkFiles, diskUsage]
    cases wait t with
    | some e => simp only; omega
    | none =>
      have hfs := walkFiles_usage_bounds wait md fs (d + 1) 0 (t + 1) h.1 (le_refl 0) (by omega)
      cases (walkFiles wait md (d + 1) 0 (t + 1) fs).err with
      | some e => simp only; omega
      | none =>
        simp only
        rw [wrap64_of_range _ (by omega) (by omega)]
        have := walkFiles_usage_bounds wait md rest d
          (u + (walkFiles wait md (d + 1) 0 (t + 1) fs).usage)
          (walkFiles wait md (d + 1) 0 (t + 1) fs).waits h.2 (by omega) (by omega)
        omega

theorem totalBlocksList_append :
    ∀ a b : List FsEntry, totalBlocksList (a ++ b) = totalBlocksList a + totalBlocksList b
  | [], b => by simp [totalBlocksList]
  | x :: rest, b => by
    have ih := totalBlocksList_append rest b
    rw [List.cons_append, totalBlocksList, totalBlocksList, ih]
    omega

theorem nonnegBlocksList_append :
    ∀ a b : List FsEntry,
      nonnegBlocksList (a ++ b) = (nonnegBlocksList a && nonnegBlocksList b)
  | [], b => by simp [nonnegBlocksList]
  | x :: rest, b => by
    have ih := nonnegBlocksList_append rest b
    rw [List.cons_append, nonnegBlocksList, nonnegBlocksList, ih, Bool.and_assoc]

theorem walkFiles_ok_granted (wait : Nat → Option GoError) (md : Int) :
    ∀ (fs : List FsEntry) (d u : Int) (t : Nat), (walkFiles wait md d u t fs).err = none →
      ∀ k, t ≤ k → k < (walkFiles wait md d u t fs).waits → wait k = none
  | [], d, u, t => by
    intro _ k h1 h2
    simp only [walkFiles] at h2
    omega
  | .file blk :: rest, d, u, t => by
    intro h k h1 h2
    simp only [walkFiles] at h h2
    cases hw : wait t with
    | some e => simp [hw] at h
    | none =>
      simp only [hw] at h h2
      rcases Nat.eq_or_lt_of_le h1 with h3 | h3
      · rw [← h3]; exact hw
      · cases blk with
        | none => exact walkFiles_ok_granted wait md rest d _ _ h k h3 h2
        | some b => exact walkFiles_ok_granted wait md rest d _ _ h k h3 h2
  | .dir (some e) fs :: rest, d, u, t => by
    intro h
    simp only [walkFiles, diskUsage] at h
    cases hw : wait t with
    | some e => simp [hw] at h
    | none => simp [hw] at h
  | .dir none fs :: rest, d, u, t => by
    intro h k h1 h2
    simp only [walkFiles, diskUsage] at h h2
    cases hw : wait t with
    | some e => simp [hw] at h
    | none =>
      simp only [hw] at h h2
      cases hr : (walkFiles wait md (d + 1) 0 (t + 1) fs).err with
      | some e => simp [hr] at h
      | none =>
        simp only [hr] at h h2
        have hle : t + 1 ≤ (walkFiles wait md (d + 1) 0 (t + 1) fs).waits := by
          rw [walkFiles_ok_waits wait md (d + 1) 0 (t + 1) fs hr]
          omega
        rcases Nat.eq_or_lt_of_le h1 with h3 | h3
        · rw [← h3]; exact hw
        · by_cases h4 : k < (walkFiles wait md (d + 1) 0 (t + 1) fs).waits
          · exact walkFiles_ok_granted wait md fs (d + 1) 0 (t + 1) hr k h3 h4
          · exact walkFiles_ok_granted wait md rest d _ _ h k (by omega) h2

/-! ### The walk: claims -/

/-- C1: in a tree whose every directory can be listed, walked with a limiter whose every
acquisition succeeds, `diskUsage` on the root returns no error and a total equal to the
sum of the block sizes of all non-directory entries at every level (an entry without
block-size metadata contributing 0), provided that sum fits in a signed 64-bit integer. -/
theorem diskUsage_total (wait : Nat → Option GoError) (maxDepth depth : Int) (t : Nat)
    (readErr : Option GoError) (files : List FsEntry)
    (hread : allReadable (.dir readErr files) = true)
    (hwait : ∀ k, wait k = none)
    (hlo : -2 ^ 63 ≤ totalBlocks (.dir readErr files))
    (hhi : totalBlocks (.dir readErr files) < 2 ^ 63) :
    (diskUsage wait maxDepth depth t (.dir readErr files)).err = none ∧
      (diskUsage wait maxDepth depth t (.dir readErr files)).usage
        = totalBlocks (.dir readErr files) := by
  cases readErr with
  | some e => simp [allReadable] at hread
  | none =>
    have hok : (diskUsage wait maxDepth depth t (.dir none files)).err = none := by
      simp only [diskUsage]
      exact walkFiles_no_error wait hwait maxDepth files depth 0 t
        (by simpa [allReadable] using hread)
    refine ⟨hok, ?_⟩
    rw [diskUsage_ok_usage wait maxDepth depth t _ hok]
    exact wrap64_of_range _ hlo hhi

/-- Witness of C1: the example tree of the specification yields 16384. -/
theorem diskUsage_total_witness :
    (diskUsage alwaysGrant 10 0 0 exampleTree).err = none ∧
      (diskUsage alwaysGrant 10 0 0 exampleTree).usage = totalBlocks exampleTree ∧
      totalBlocks exampleTree = 16384 :=
  ⟨(diskUsage_total alwaysGrant 10 0 0 none _ (by decide) (fun _ => rfl) (by decide)
      (by decide)).1,
    (diskUsage_total alwaysGrant 10 0 0 none _ (by decide) (fun _ => rfl) (by decide)
      (by decide)).2,
    by decide⟩

/-- C2: when the tree holds a directory (the root or a nested one) whose listing fails,
`diskUsage` on the root returns an error whatever the limiter does, and `FetchMetrics`
returns that error with no metric map. -/
theorem listing_failure_is_fatal (conv : Int → Nat) (wait : Nat → Option GoError)
    (n : NginxCachePlugin) (root : FsEntry) (h : hasUnreadable root = true) :
    (∀ maxDepth depth t, (diskUsage wait maxDepth depth t root).err ≠ none) ∧
      ∃ e, (diskUsage wait 10 0 0 root).err = some e ∧
        FetchMetrics conv wait n root = (none, some e) := by
  refine ⟨fun md d t => diskUsage_unreadable wait md d t root h, ?_⟩
  have h0 := diskUsage_unreadable wait 10 0 0 root h
  cases hr : (diskUsage wait 10 0 0 root).err with
  | none => exact absurd hr h0
  | some e => exact ⟨e, rfl, by simp [FetchMetrics, hr]⟩

/-- Witness of C2: a readable file next to a subdirectory whose listing fails. -/
theorem listing_failure_is_fatal_witness :
    ∃ e, (diskUsage alwaysGrant 10 0 0
        (.dir none [.file (some 4096), .dir (some (.other 13)) []])).err = some e ∧
      FetchMetrics (fun _ => 0) alwaysGrant ⟨[], 500, [], []⟩
        (.dir none [.file (some 4096), .dir (some (.other 13)) []]) = (none, some e) :=
  (listing_failure_is_fatal (fun _ => 0) alwaysGrant ⟨[], 500, [], []⟩
    (.dir none [.file (some 4096), .dir (some (.other 13)) []]) (by decide)).2

/-- Counterexample to C3 as stated: with every acquisition failing, a root whose listing
is empty makes no acquisition and returns no error. -/
theorem cancelled_empty_root_returns_no_error :
    (∀ k, alwaysCancelled k = some GoError.canceled) ∧
      diskUsage alwaysCancelled 10 0 0 (.dir none []) = ⟨0, none, 0⟩ :=
  ⟨fun _ => rfl, by decide⟩

/-- C3, amended: when every limiter acquisition fails with the cancellation error, the
usage returned by `diskUsage` is 0 for every tree; the error is the cancellation error
when the root can be listed and holds at least one entry, there is no error when the
listing of the root is empty, and the error is the listing error when the listing of the
root fails. -/
theorem cancelled_before_first_token (wait : Nat → Option GoError) (maxDepth depth : Int)
    (t : Nat) (hc : ∀ k, wait k = some GoError.canceled) :
    (∀ root, (diskUsage wait maxDepth depth t root).usage = 0) ∧
      (∀ x rest, diskUsage wait maxDepth depth t (.dir none (x :: rest))
        = ⟨0, some .canceled, t + 1⟩) ∧
      diskUsage wait maxDepth depth t (.dir none []) = ⟨0, none, t⟩ ∧
      (∀ e files, diskUsage wait maxDepth depth t (.dir (some e) files) = ⟨0, some e, t⟩) := by
  have hcons : ∀ x rest, diskUsage wait maxDepth depth t (.dir none (x :: rest))
      = ⟨0, some .canceled, t + 1⟩ := by
    intro x rest
    simp only [diskUsage]
    exact walkFiles_wait_fail wait maxDepth depth 0 t x rest _ (hc t)
  refine ⟨?_, hcons, by simp [diskUsage, walkFiles], by simp [diskUsage]⟩
  intro root
  cases root with
  | file blk => simp [diskUsage]
  | dir re fs =>
    cases re with
    | some e => simp [diskUsage]
    | none =>
      cases fs with
      | nil => simp [diskUsage, walkFiles]
      | cons x rest => rw [hcons]

/-- Witness of C3, amended: the example tree under a cancelled context. -/
theorem cancelled_before_first_token_witness :
    diskUsage alwaysCancelled 10 0 0 exampleTree = ⟨0, some .canceled, 1⟩ :=
  (cancelled_before_first_token alwaysCancelled 10 0 0 (fun _ => rfl)).2.1 _ _

/-- C6: in a walk that returns no error, the number of calls of `limiter.Wait` made by
`diskUsage` equals the number of entries (files and directories) below the root, none
being made for the root itself, and each of these calls was granted. -/
theorem waits_eq_entry_count (wait : Nat → Option GoError) (maxDepth depth : Int) (t : Nat)
    (root : FsEntry) (h : (diskUsage wait maxDepth depth t root).err = none) :
    (diskUsage wait maxDepth depth t root).waits = t + entryCount root ∧
      ∀ k, t ≤ k → k < t + entryCount root → wait k = none := by
  have hw := diskUsage_ok_waits wait maxDepth depth t root h
  refine ⟨hw, ?_⟩
  intro k h1 h2
  rw [← hw] at h2
  cases root with
  | file blk => simp [diskUsage] at h
  | dir re fs =>
    cases re with
    | some e => simp [diskUsage] at h
    | none =>
      simp only [diskUsage] at h h2
      exact walkFiles_ok_granted wait maxDepth fs depth 0 t h k h1 h2

/-- Witness of C6: the example tree has four entries below its root. -/
theorem waits_eq_entry_count_witness :
    (diskUsage alwaysGrant 10 0 0 exampleTree).waits = 0 + entryCount exampleTree ∧
      entryCount exampleTree = 4 :=
  ⟨(waits_eq_entry_count alwaysGrant 10 0 0 exampleTree (by decide)).1, by decide⟩

set_option maxRecDepth 4096

/-- C7: the result of `diskUsage` (total, error and limiter calls) does not depend on
`maxDepth` or `depth`; in particular a file listed by the call at depth 11, below the
bound 10 passed by `FetchMetrics`, is counted. -/
theorem depth_bound_not_enforced :
    (∀ (wait : Nat → Option GoError) (maxDepth depth maxDepth' depth' : Int) (t : Nat)
        (root : FsEntry),
        diskUsage wait maxDepth depth t root = diskUsage wait maxDepth' depth' t root) ∧
      diskUsage alwaysGrant 10 0 0 (nest 12 (.file (some 3145728))) = ⟨3145728, none, 12⟩ ∧
      FetchMetrics (fun _ => 0) alwaysGrant ⟨[], 500, [], []⟩ (nest 12 (.file (some 3145728)))
        = (some [("size", 500), ("usage", 3)], none) :=
  ⟨fun wait md d md' d' t root => diskUsage_depth_irrelevant wait md md' d d' t root,
    by decide, by decide⟩

/-- Counterexample to C8 as stated: two files of block size 2^62 in one listing. The
running total is 2^62 after the first entry and -2^63 after the second: it decreased
and is negative. -/
theorem running_total_wraps_negative :
    (walkFiles alwaysGrant 10 0 0 0 [.file (some 4611686018427387904)]).usage
        = 4611686018427387904 ∧
      (walkFiles alwaysGrant 10 0 0 0
        [.file (some 4611686018427387904), .file (some 4611686018427387904)]).usage
        = -9223372036854775808 := by
  decide

/-- C8, amended: when every block size reported in a listing and below it is
non-negative and their sum is below 2^63, the running total of the loop over that listing
is never negative and does not decrease when the next entry is processed, whatever the
limiter and the listings below do. -/
theorem running_total_monotone (wait : Nat → Option GoError) (maxDepth depth : Int) (t : Nat)
    (done : List FsEntry) (next : FsEntry)
    (hnonneg : nonnegBlocksList (done ++ [next]) = true)
    (hfit : totalBlocksList (done ++ [next]) < 2 ^ 63) :
    0 ≤ (walkFiles wait maxDepth depth 0 t done).usage ∧
      (walkFiles wait maxDepth depth 0 t done).usage
        ≤ (walkFiles wait maxDepth depth 0 t (done ++ [next])).usage := by
  rw [nonnegBlocksList_append, Bool.and_eq_true] at hnonneg
  rw [totalBlocksList_append] at hfit
  have h1 := totalBlocksList_nonneg done hnonneg.1
  have h2 := totalBlocksList_nonneg [next] hnonneg.2
  have hd := walkFiles_usage_bounds wait maxDepth done depth 0 t hnonneg.1 (le_refl 0)
    (by omega)
  refine ⟨hd.1, ?_⟩
  rw [walkFiles_append]
  cases (walkFiles wait maxDepth depth 0 t done).err with
  | some e => exact le_refl _
  | none =>
    exact (walkFiles_usage_bounds wait maxDepth [next] depth _ _ hnonneg.2 hd.1
      (by omega)).1

/-- Witness of C8, amended: the listing of the example tree's root. -/
theorem running_total_monotone_witness :
    0 ≤ (walkFiles alwaysGrant 10 0 0 0 [.file (some 4096)]).usage ∧
      (walkFiles alwaysGrant 10 0 0 0 [.file (some 4096)]).usage
        ≤ (walkFiles alwaysGrant 10 0 0 0
          ([.file (some 4096)] ++ [.dir none [.file (some 4096), .file (some 8192)]])).usage :=
  running_total_monotone alwaysGrant 10 0 0 [.file (some 4096)]
    (.dir none [.file (some 4096), .file (some 8192)]) (by decide) (by decide)

/-- C10: the total returned with an error is the running total of that level. A
directory whose listing fails returns 0. When the entries before `x` were walked without
error and then either the acquisition for `x` fails, or `x` is a subdirectory whose walk
fails, the directory returns that error with the total of the entries before `x`, which
is the (wrapped) sum of their subtree totals; nothing of `x` is added. -/
theorem failure_returns_running_total (wait : Nat → Option GoError) (maxDepth depth : Int)
    (t : Nat) (before : List FsEntry) (x : FsEntry) (after : List FsEntry) (e : GoError)
    (hbefore : (walkFiles wait maxDepth depth 0 t before).err = none)
    (hfail : wait (walkFiles wait maxDepth depth 0 t before).waits = some e ∨
      (wait (walkFiles wait maxDepth depth 0 t before).waits = none ∧
        (∃ re fs, x = .dir re fs) ∧
        (diskUsage wait maxDepth (depth + 1)
          ((walkFiles wait maxDepth depth 0 t before).waits + 1) x).err = some e)) :
    (diskUsage wait maxDepth depth t (.dir none (before ++ x :: after))).err = some e ∧
      (diskUsage wait maxDepth depth t (.dir none (before ++ x :: after))).usage
        = (walkFiles wait maxDepth depth 0 t before).usage ∧
      (walkFiles wait maxDepth depth 0 t before).usage = wrap64 (totalBlocksList before) ∧
      ∀ e1 files, diskUsage wait maxDepth depth t (.dir (some e1) files) = ⟨0, some e1, t⟩ := by
  have hsum := walkFiles_ok_usage wait maxDepth depth 0 t before (by decide) hbefore
  rw [zero_add] at hsum
  refine ⟨?_, ?_, hsum, by simp [diskUsage]⟩
  · simp only [diskUsage]
    rw [walkFiles_append, hbefore]
    simp only
    rcases hfail with hw | ⟨hw, ⟨re, fs, hx⟩, hr⟩
    · rw [walkFiles_wait_fail wait maxDepth depth _ _ x after e hw]
    · subst hx
      simp [walkFiles, hw, hr]
  · simp only [diskUsage]
    rw [walkFiles_append, hbefore]
    simp only
    rcases hfail with hw | ⟨hw, ⟨re, fs, hx⟩, hr⟩
    · rw [walkFiles_wait_fail wait maxDepth depth _ _ x after e hw]
    · subst hx
      simp [walkFiles, hw, hr]

/-- Witness of C10: after a file of block size 4096 comes a subdirectory holding a file
of block size 100 and a directory whose listing fails; the 100 is not added. -/
theorem failure_returns_running_total_witness :
    (diskUsage alwaysGrant 10 0 0 (.dir none ([.file (some 4096)] ++
        .dir none [.file (some 100), .dir (some (.other 13)) []] ::
          [.file (some 8192)]))).err = some (.other 13) ∧
      (diskUsage alwaysGrant 10 0 0 (.dir none ([.file (some 4096)] ++
        .dir none [.file (some 100), .dir (some (.other 13)) []] ::
          [.file (some 8192)]))).usage = 4096 :=
  ⟨(failure_returns_running_total alwaysGrant 10 0 0 [.file (some 4096)]
      (.dir none [.file (some 100), .dir (some (.other 13)) []]) [.file (some 8192)]
      (.other 13) (by decide) (Or.inr ⟨by decide, ⟨_, _, rfl⟩, by decide⟩)).1,
    (failure_returns_running_total alwaysGrant 10 0 0 [.file (some 4096)]
      (.dir none [.file (some 100), .dir (some (.other 13)) []]) [.file (some 8192)]
      (.other 13) (by decide) (Or.inr ⟨by decide, ⟨_, _, rfl⟩, by decide⟩)).2.1.trans
      (by decide)⟩

/-! ### Conversion to megabytes -/

theorem excessBits_small (fuel m : Nat) (h : m < 2 ^ 53) : excessBits fuel m = 0 := by
  cases fuel with
  | zero => rfl
  | succ k =>
    simp only [excessBits]
    rw [if_pos h]

theorem roundFloat53_exact (m : Nat) (h : m ≤ 2 ^ 53) : roundFloat53 m = m := by
  rcases Nat.lt_or_eq_of_le h with h1 | h1
  · simp [roundFloat53, excessBits_small 64 m h1, Nat.mod_one]
  · subst h1
    decide

theorem usageMegabytes_exact (conv : Int → Nat) (u : Int) (h0 : 0 ≤ u) (h1 : u ≤ 2 ^ 53) :
    usageMegabytes conv u = (u / 1048576).toNat := by
  have hm : u.toNat ≤ 2 ^ 53 := by omega
  have hf : float64OfInt64 u = (u.toNat : Int) := by
    simp [float64OfInt64, h0, roundFloat53_exact _ hm]
  simp only [usageMegabytes, hf]
  rw [if_pos (by omega)]
  omega

/-- Counterexample to C4 as stated: a walk total of 2^53 + 2^20 - 1 (one file with that
block size). Its floor quotient by 1048576 is 8589934592, the metric is 8589934593. -/
theorem usage_metric_rounds_up :
    diskUsage alwaysGrant 10 0 0 (.dir none [.file (some 9007199255789567)])
        = ⟨9007199255789567, none, 1⟩ ∧
      FetchMetrics (fun _ => 0) alwaysGrant ⟨[], 500, [], []⟩
        (.dir none [.file (some 9007199255789567)])
        = (some [("size", 500), ("usage", 8589934593)], none) ∧
      (9007199255789567 : Int) / 1048576 = 8589934592 := by
  decide

/-- C4, amended: for every walk total `u` returned by `diskUsage` without error with
`0 ≤ u ≤ 2^53` (the totals that `float64` holds exactly), `FetchMetrics` returns the map
with `size` the configured capacity and `usage` the floor of `u / 1048576`. -/
theorem usage_metric_floor (conv : Int → Nat) (wait : Nat → Option GoError)
    (n : NginxCachePlugin) (root : FsEntry)
    (herr : (diskUsage wait 10 0 0 root).err = none)
    (h0 : 0 ≤ (diskUsage wait 10 0 0 root).usage)
    (h1 : (diskUsage wait 10 0 0 root).usage ≤ 2 ^ 53) :
    FetchMetrics conv wait n root
      = (some [("size", n.ProxyCacheSize),
          ("usage", ((diskUsage wait 10 0 0 root).usage / 1048576).toNat)], none) := by
  simp only [FetchMetrics, herr, usageMegabytes_exact conv _ h0 h1]

/-- Witness of C4, amended: a single file of 3 MiB + 1048575 bytes reports 3. -/
theorem usage_metric_floor_witness :
    FetchMetrics (fun _ => 0) alwaysGrant ⟨[], 500, [], []⟩ (.dir none [.file (some 4194303)])
      = (some [("size", 500), ("usage", 3)], none) :=
  usage_metric_floor (fun _ => 0) alwaysGrant ⟨[], 500, [], []⟩
    (.dir none [.file (some 4194303)]) (by decide) (by decide) (by decide)

/-! ### The scratch-file path -/

theorem stringsReplaceAux_slash :
    ∀ (s : List Nat) (fuel : Nat) (n : Int), n < 0 → s.length ≤ fuel →
      stringsReplaceAux [47] [45] fuel n s = s.map (fun c => if c = 47 then 45 else c)
  | [], fuel, n => by
    intro hn _
    cases fuel with
    | zero => rfl
    | succ k => simp [stringsReplaceAux]
  | c :: rest, fuel, n => by
    intro hn hl
    cases fuel with
    | zero => simp at hl
    | succ k =>
      have hl1 : rest.length ≤ k := by simpa using hl
      have hn0 : n ≠ 0 := by omega
      by_cases hc : c = 47
      · simp [stringsReplaceAux, hn0, hc,
          stringsReplaceAux_slash rest k (n - 1) (by omega) hl1]
      · have hc1 : ¬ (47 = c) := fun h => hc h.symm
        simp [stringsReplaceAux, hn0, hc, hc1, stringsReplaceAux_slash rest k n hn hl1]

/-- C9: `buildTempfilePath p` is the fixed head `/tmp/mackerel-plugin-nginx-cache-`
followed by `p` with every `/` replaced by `-` and every other byte unchanged; what
follows the head holds no `/` and has the length of `p`; `main` uses this path exactly
when the tempfile override is empty, and the override otherwise. -/
theorem buildTempfilePath_spec (p : List Nat) :
    buildTempfilePath p = ascii "/tmp/mackerel-plugin-nginx-cache-"
        ++ p.map (fun c => if c = 47 then 45 else c) ∧
      47 ∉ (buildTempfilePath p).drop (ascii "/tmp/mackerel-plugin-nginx-cache-").length ∧
      ((buildTempfilePath p).drop (ascii "/tmp/mackerel-plugin-nginx-cache-").length).length
        = p.length ∧
      ∀ tempfile, mainTempfile tempfile p
        = if tempfile = [] then buildTempfilePath p else tempfile := by
  have h : buildTempfilePath p = ascii "/tmp/mackerel-plugin-nginx-cache-"
      ++ p.map (fun c => if c = 47 then 45 else c) := by
    have h47 : ascii "/" = [47] := by decide
    have h45 : ascii "-" = [45] := by decide
    simp only [buildTempfilePath, stringsReplace, h47, h45]
    rw [if_neg (by simp), stringsReplaceAux_slash p p.length (-1) (by omega) (le_refl _)]
  refine ⟨h, ?_, ?_, ?_⟩
  · rw [h, List.drop_left]
    intro hmem
    rcases List.mem_map.1 hmem with ⟨c, _, hc⟩
    by_cases h47 : c = 47
    · simp [h47] at hc
    · simp only [h47, if_false] at hc
  · rw [h, List.drop_left, List.length_map]
  · intro tempfile
    by_cases ht : tempfile = []
    · simp [mainTempfile, ht]
    · simp [mainTempfile, ht]

/-! ### Capacity parsing -/

theorem digitChar_toNat (d : Nat) (h : d < 10) : (Nat.digitChar d).toNat = 48 + d := by
  interval_cases d <;> rfl

theorem digitsValue_ge : ∀ (l : List Nat) (a : Nat), a ≤ digitsValue a l
  | [], a => le_refl a
  | c :: cs, a => by
    have := digitsValue_ge cs (a * 10 + (c - 48))
    simp only [digitsValue, List.foldl_cons] at this ⊢
    omega

theorem parseUintLoop_digits :
    ∀ (l : List Nat) (a : Nat), (∀ c ∈ l, 48 ≤ c ∧ c ≤ 57) → digitsValue a l < 2 ^ 64 →
      parseUintLoop 10 true ((2 ^ 64 - 1) / 10 + 1) (2 ^ 64 - 1) a false l
        = (digitsValue a l, none, false)
  | [], a => by
    intro _ _
    simp [parseUintLoop, digitsValue]
  | c :: cs, a => by
    intro hd hv
    have hc := hd c (List.mem_cons_self c cs)
    have hcs : ∀ x ∈ cs, 48 ≤ x ∧ x ≤ 57 := fun x hx => hd x (List.mem_cons_of_mem c hx)
    have hv1 : digitsValue (a * 10 + (c - 48)) cs < 2 ^ 64 := by
      simpa [digitsValue] using hv
    have hge := digitsValue_ge cs (a * 10 + (c - 48))
    have ih := parseUintLoop_digits cs (a * 10 + (c - 48)) hcs hv1
    have h95 : c ≠ 95 := by omega
    have hmod : a * 10 % 2 ^ 64 = a * 10 := Nat.mod_eq_of_lt (by omega)
    have hmod1 : (a * 10 + (c - 48)) % 2 ^ 64 = a * 10 + (c - 48) :=
      Nat.mod_eq_of_lt (by omega)
    rw [parseUintLoop]
    rw [if_neg (by simp [h95]), if_pos hc]
    simp only
    rw [if_neg (by omega), if_neg (by omega), hmod, hmod1, if_neg (by omega), ih]
    simp [digitsValue]

theorem toDigitsCore_bytes (fuel : Nat) :
    ∀ (n : Nat) (ds : List Char), (∀ c ∈ ds.map Char.toNat, 48 ≤ c ∧ c ≤ 57) →
      ∀ c ∈ (Nat.toDigitsCore 10 fuel n ds).map Char.toNat, 48 ≤ c ∧ c ≤ 57 := by
  induction fuel with
  | zero => intro n ds h; simpa [Nat.toDigitsCore] using h
  | succ k ih =>
    intro n ds h
    have hd : ∀ c ∈ ((Nat.digitChar (n % 10)) :: ds).map Char.toNat, 48 ≤ c ∧ c ≤ 57 := by
      intro c hc
      rw [List.map_cons, List.mem_cons] at hc
      rcases hc with hc | hc
      · rw [hc, digitChar_toNat _ (Nat.mod_lt _ (by decide))]
        have := Nat.mod_lt n (show 0 < 10 by decide)
        omega
      · exact h c hc
    simp only [Nat.toDigitsCore]
    split
    · exact hd
    · exact ih _ _ hd

theorem toDigitsCore_value (fuel : Nat) :
    ∀ (n : Nat) (ds : List Char), n < fuel →
      digitsValue 0 ((Nat.toDigitsCore 10 fuel n ds).map Char.toNat)
        = digitsValue n (ds.map Char.toNat) := by
  induction fuel with
  | zero => intro n ds h; omega
  | succ k ih =>
    intro n ds h
    have hm := Nat.mod_lt n (show 0 < 10 by decide)
    have hdc := digitChar_toNat (n % 10) hm
    simp only [Nat.toDigitsCore]
    split
    · rename_i h0
      have hn10 : n % 10 = n := by omega
      have hdc1 : (Nat.digitChar n).toNat = 48 + n := by rw [hn10] at hdc; exact hdc
      simp [digitsValue, hdc1, hn10]
    · rename_i h0
      rw [ih (n / 10) _ (by omega)]
      have : n / 10 * 10 + n % 10 = n := by omega
      simp [digitsValue, hdc, this]

theorem toDigitsCore_head (fuel : Nat) :
    ∀ (n : Nat) (ds : List Char), 0 < n → n < fuel →
      ∃ c cs, (Nat.toDigitsCore 10 fuel n ds).map Char.toNat = c :: cs ∧ c ≠ 48 := by
  induction fuel with
  | zero => intro n ds _ h; omega
  | succ k ih =>
    intro n ds hn h
    have hm := Nat.mod_lt n (show 0 < 10 by decide)
    have hdc := digitChar_toNat (n % 10) hm
    simp only [Nat.toDigitsCore]
    split
    · rename_i h0
      refine ⟨_, _, List.map_cons _ _ _, ?_⟩
      rw [hdc]
      omega
    · rename_i h0
      exact ih (n / 10) _ (by omega) (by omega)

theorem detectBase_decimal (c : Nat) (cs : List Nat) (h : c ≠ 48) :
    detectBase (c :: cs) = (10, c :: cs) := by
  unfold detectBase
  split
  · rename_i heq
    simp only [List.cons.injEq] at heq
    omega
  · rename_i heq
    simp only [List.cons.injEq] at heq
    omega
  · rfl

theorem decimal_digits (n : Nat) : ∀ c ∈ decimal n, 48 ≤ c ∧ c ≤ 57 :=
  toDigitsCore_bytes (n + 1) n [] (by simp)

theorem decimal_value (n : Nat) : digitsValue 0 (decimal n) = n := by
  have h := toDigitsCore_value (n + 1) n [] (Nat.lt_succ_self n)
  simpa [digitsValue] using h

theorem decimal_head (n : Nat) (hn : 0 < n) : ∃ c cs, decimal n = c :: cs ∧ c ≠ 48 :=
  toDigitsCore_head (n + 1) n [] hn (Nat.lt_succ_self n)

theorem parseUint_auto_64 (s : List Nat) (hne : s ≠ []) :
    parseUint s 0 64 =
      match parseUintLoop (detectBase s).1 true ((2 ^ 64 - 1) / (detectBase s).1 + 1)
          (2 ^ 64 - 1) 0 false (detectBase s).2 with
      | (v, some e, _) => (v, some e)
      | (v, none, us) =>
        if us = true ∧ underscoreOK s = false then (0, some .malformed) else (v, none) := by
  unfold parseUint
  rw [if_neg hne]
  rfl

theorem parseUint_decimal (n : Nat) (hn : 0 < n) (h : n < 2 ^ 64) :
    parseUint (decimal n) 0 64 = (n, none) := by
  obtain ⟨c, cs, hdec, hc⟩ := decimal_head n hn
  have hloop := parseUintLoop_digits (decimal n) 0 (decimal_digits n)
    (by rw [decimal_value]; exact h)
  rw [decimal_value] at hloop
  have hne : decimal n ≠ [] := by simp [hdec]
  have hdet : detectBase (decimal n) = (10, decimal n) := by
    rw [hdec]; exact detectBase_decimal c cs hc
  rw [parseUint_auto_64 _ hne, hdet]
  simp only
  rw [hloop]
  simp

theorem usageUnitPatMatch_decimal (n : Nat) : usageUnitPatMatch (decimal n) = false := by
  unfold usageUnitPatMatch
  cases hl : (decimal n).getLast? with
  | none => rfl
  | some c =>
    have hm := decimal_digits n c (List.mem_of_getLast?_eq_some hl)
    have : c ≠ 109 := by omega
    simp [this]

theorem usageUnitPatMatch_suffix (s : List Nat) : usageUnitPatMatch (s ++ [109]) = true := by
  simp [usageUnitPatMatch]

/-- C5: for every `n` below 2^64, the capacity parsing of `main` yields `n` both for the
decimal representation of `n` and for that representation followed by `m`. -/
theorem capacity_parse_decimal (n : Nat) (h : n < 2 ^ 64) :
    mainProxyCacheSize (decimal n) = some n ∧
      mainProxyCacheSize (decimal n ++ ascii "m") = some n := by
  have hm : ascii "m" = [109] := by decide
  have hplain : mainProxyCacheSize (decimal n) = some n := by
    rcases Nat.eq_zero_or_pos n with h0 | h0
    · subst h0
      decide
    · unfold mainProxyCacheSize
      rw [usageUnitPatMatch_decimal]
      simp only [Bool.false_eq_true, if_false]
      rw [parseUint_decimal n h0 h]
  refine ⟨hplain, ?_⟩
  have hs : mainProxyCacheSize (decimal n ++ [109]) = mainProxyCacheSize (decimal n) := by
    unfold mainProxyCacheSize
    rw [usageUnitPatMatch_suffix, usageUnitPatMatch_decimal]
    simp
  rw [hm, hs, hplain]

/-- Witness of C5: the inputs `500` and `500m` both yield 500. -/
theorem capacity_parse_decimal_witness :
    decimal 500 = ascii "500" ∧ mainProxyCacheSize (ascii "500") = some 500 ∧
      mainProxyCacheSize (ascii "500m") = some 500 :=
  ⟨by decide, (capacity_parse_decimal 500 (by decide)).1,
    (capacity_parse_decimal 500 (by decide)).2⟩

/-! ### The models of the library functions on sample inputs -/

theorem parseUint_samples :
    parseUint (ascii "0x10") 0 64 = (16, none) ∧
      parseUint (ascii "010") 0 64 = (8, none) ∧
      parseUint (ascii "0b101") 0 64 = (5, none) ∧
      parseUint (ascii "1_000") 0 64 = (1000, none) ∧
      parseUint (ascii "1__000") 0 64 = (0, some .malformed) ∧
      parseUint (ascii "") 0 64 = (0, some .malformed) ∧
      parseUint (ascii "12a") 0 64 = (0, some .malformed) ∧
      parseUint (ascii "18446744073709551615") 0 64 = (18446744073709551615, none) ∧
      parseUint (ascii "18446744073709551616") 0 64
        = (18446744073709551615, some .outOfRange) := by
  decide

theorem stringsReplace_samples :
    stringsReplace (ascii "a/b/c") (ascii "/") (ascii "-") (-1) = ascii "a-b-c" ∧
      stringsReplace (ascii "a/b/c") (ascii "/") (ascii "-") 1 = ascii "a-b/c" ∧
      stringsReplace (ascii "aaaa") (ascii "aa") (ascii "b") (-1) = ascii "bb" ∧
      buildTempfilePath (ascii "/var/cache/nginx")
        = ascii "/tmp/mackerel-plugin-nginx-cache--var-cache-nginx" := by
  decide

theorem roundFloat53_samples :
    roundFloat53 (2 ^ 53 + 1) = 2 ^ 53 ∧ roundFloat53 (2 ^ 53 + 3) = 2 ^ 53 + 4 ∧
      roundFloat53 (2 ^ 63 - 1) = 2 ^ 63 ∧ roundFloat53 (2 ^ 63 - 513) = 2 ^ 63 - 1024 := by
  decide

end NginxCache
